import Mathlib

/-!
Verification of the CSV-merger core (encoding resolution, delimiter
detection, row filtering, sheet construction) against a shallow Lean
embedding of the Python sources `src/main.py` and `src/Self-CSV-App.py`.

Bytes are modelled as `List Nat` (each entry `< 256`), decoded text as
`List Nat` of Unicode code points, cells as `List Char`, rows as lists of
cells.  External I/O (file reading, the `chardet` statistical detector,
the `csv.reader` parse) is passed in as explicit data, mirroring exactly
how the source consumes it.
-/

namespace CsvMerger

/-! ## Encoding resolver (`try_encodings` in `src/main.py`, lines 10-44) -/

/-- Result of the `chardet.detect` call: a guessed encoding name and a
confidence score in `[0,1]`, modelled as a rational. -/
structure DetectResult where
  encoding : String
  confidence : Rat
deriving DecidableEq

/-- The fixed priority list of encodings from `try_encodings`. -/
def encodings : List String :=
  [("utf-8-sig"), ("utf-16"), ("utf-16le"), ("utf-16be"),
   ("utf-8"), ("ascii"), ("iso-8859-1"), ("cp1252")]

/-- The candidate list actually iterated: `encodings.insert(0, guess)`
is executed only when `chardet` ran without exception (`detected ≠ none`)
and its confidence exceeds 0.7. -/
def candidate_list (detected : Option DetectResult) : List String :=
  match detected with
  | none => encodings
  | some d => if d.confidence > (7 : Rat) / 10 then d.encoding :: encodings else encodings

/-- The `for encoding in encodings: try ... return encoding` loop: return
the first candidate for which the probe decode succeeds. -/
def firstThat (p : String → Bool) : List String → Option String
  | [] => none
  | e :: rest => if p e then some e else firstThat p rest

/-- `try_encodings`, with the probe (`codecs.open` + reading 3 lines
without a `UnicodeDecodeError`/`UnicodeError`) abstracted as the
predicate `decodes`.  `none` models the final `raise ValueError`. -/
def try_encodings (decodes : String → Bool) (detected : Option DetectResult) :
    Option String :=
  firstThat decodes (candidate_list detected)

/-- `e` is the first element of `l` satisfying `p`: `l` splits as the
rejected ones, then `e`, then the never-attempted rest. -/
def IsFirstSuccess (p : String → Bool) (l : List String) (e : String) : Prop :=
  ∃ l1 l2, l = l1 ++ e :: l2 ∧ p e = true ∧ ∀ x ∈ l1, p x = false


/-! ## Delimiter detector (`detect_delimiter` in `src/main.py`, lines 46-62) -/

/-- The fixed candidate set, in declaration order. -/
def common_delimiters : List Char := [(','), ('\t'), (';'), ('|')]

/-- `counts = {delimiter: first_line.count(delimiter) for ...}`:
insertion-ordered association list of candidate/count pairs. -/
def delimCounts (line : List Char) : List (Char × Nat) :=
  common_delimiters.map (fun d => (d, line.count d))

/-- `max(counts.values())` (the dict is non-empty; folding from 0 agrees
because counts are naturals). -/
def maxValues (l : List Nat) : Nat := l.foldl Nat.max 0

/-- The accumulator walk of Python's `max(items, key=lambda x: x[1])`:
a later item replaces the current best only on a strictly greater key,
so the first item attaining the maximum wins. -/
def pyMaxAux (acc : Char × Nat) : List (Char × Nat) → Char × Nat
  | [] => acc
  | q :: qs => pyMaxAux (if acc.2 < q.2 then q else acc) qs

/-- Python's `max(items, key=lambda x: x[1])` (`none` on an empty list,
which would raise). -/
def pyMaxByVal : List (Char × Nat) → Option (Char × Nat)
  | [] => none
  | p :: ps => some (pyMaxAux p ps)

/-- `detect_delimiter`.  The argument is the decoded first line, or
`none` when reading it raised (the `except` branch); both the exception
branch and a zero maximum fall through to `return ','`. -/
def detect_delimiter (firstLine : Option (List Char)) : Char :=
  match firstLine with
  | none => (',')
  | some line =>
    let counts := delimCounts line
    let max_count := maxValues (counts.map (fun p => p.2))
    if 0 < max_count then
      match pyMaxByVal counts with
      | some p => p.1
      | none => (',')
    else (',')

/-! ## Row filter (`read_csv_safely` in `src/main.py`, lines 64-76;
inline in `src/Self-CSV-App.py`, lines 71-75) -/

/-- Python `str.strip()` whitespace on the ASCII range: space, tab,
newline, carriage return, vertical tab, form feed. -/
def pyIsSpace (c : Char) : Bool :=
  c = (' ') || c = ('\t') || c = ('\n') || c = ('\r') ||
  c = (Char.ofNat 11) || c = (Char.ofNat 12)

/-- Python `cell.strip()`: drop leading and trailing whitespace. -/
def pyStrip (s : List Char) : List Char :=
  ((s.dropWhile pyIsSpace).reverse.dropWhile pyIsSpace).reverse

/-- One parsed row: a list of cells. -/
abbrev Row := List (List Char)

/-- `if row and any(cell.strip() for cell in row)`. -/
def keep (row : Row) : Bool :=
  !row.isEmpty && row.any (fun cell => !(pyStrip cell).isEmpty)

/-- `read_csv_safely`: the `csv.reader` output is passed in as `parsed`
(`none` models an exception while opening/decoding/parsing, re-raised as
`ValueError`); the loop appends exactly the rows passing the filter. -/
def read_csv_safely (parsed : Option (List Row)) : Option (List Row) :=
  match parsed with
  | none => none
  | some rs => some (rs.foldl (fun acc r => if keep r then acc ++ [r] else acc) [])

/-! ## Sheet-name derivation (`Path(csv_file.name).stem[:31]`) -/

/-- `name.rfind('.')`: index of the last dot, if any. -/
def lastDotIdx (name : List Char) : Option Nat :=
  (List.range name.length).foldl
    (fun acc i => if name.getD i (' ') = ('.') then some i else acc) none

/-- `PurePath.stem` for a bare file name: chop at the last dot when that
dot is neither the first nor the last character, else the whole name. -/
def stem (name : List Char) : List Char :=
  match lastDotIdx name with
  | none => name
  | some i => if 0 < i ∧ i < name.length - 1 then name.take i else name

/-- `Path(csv_file.name).stem[:31]`. -/
def sheet_name (name : List Char) : List Char := (stem name).take 31

/-! ## Merge orchestration (`merge_csv_to_excel`, `src/main.py` lines 86-120
and `src/Self-CSV-App.py` lines 57-81) -/

/-- Everything one per-file loop iteration consumes from the outside
world: the file's display name, the probe-decode oracle over encoding
names, the `chardet` outcome, the decoded first line (for delimiter
detection; `none` = read raised), and the `csv.reader` output (`none` =
opening/decoding/parsing raised). -/
structure FileCtx where
  name : List Char
  probe : String → Bool
  detected : Option DetectResult
  firstLine : Option (List Char)
  parsed : Option (List Row)

/-- One sheet of the output workbook: its title and its appended rows. -/
structure Sheet where
  title : List Char
  rows : List Row
deriving DecidableEq

/-- The four metadata rows `main.py` appends before any data:
`File Name: ...`, `Encoding: ...`, `Delimiter: ...`, and one empty row. -/
def metadataRows (name : List Char) (enc : String) (delim : Char) : List Row :=
  [[(String.toList ("File Name: ")) ++ name],
   [(String.toList ("Encoding: ")) ++ enc.toList],
   [(String.toList ("Delimiter: ")) ++ [delim]],
   []]

/-- The sheets one `main.py` loop iteration leaves in the workbook.
`try_encodings` raising aborts the iteration before the sheet exists;
`read_csv_safely` raising leaves the already-created metadata-only
sheet behind (the `except` block only `continue`s). -/
def processSheets (f : FileCtx) : List Sheet :=
  match try_encodings f.probe f.detected with
  | none => []
  | some enc =>
    let delim := detect_delimiter f.firstLine
    match read_csv_safely f.parsed with
    | none => [⟨sheet_name f.name, metadataRows f.name enc delim⟩]
    | some rows => [⟨sheet_name f.name, metadataRows f.name enc delim ++ rows⟩]

/-- `merge_csv_to_excel` (main variant): the per-file loop with its
`except ...: continue`. -/
def merge_csv_to_excel : List FileCtx → List Sheet
  | [] => []
  | f :: fs => processSheets f ++ merge_csv_to_excel fs

/-- The sheets one `Self-CSV-App.py` loop iteration leaves: only the
`File Name:` row precedes the (inline-filtered) data rows. -/
def processSheetsApp (f : FileCtx) : List Sheet :=
  match try_encodings f.probe f.detected with
  | none => []
  | some _ =>
    let _ := detect_delimiter f.firstLine
    match read_csv_safely f.parsed with
    | none => [⟨sheet_name f.name, [[(String.toList ("File Name: ")) ++ f.name]]⟩]
    | some rows =>
        [⟨sheet_name f.name, [(String.toList ("File Name: ")) ++ f.name] :: rows⟩]

/-- `merge_csv_to_excel` (Self-CSV-App variant). -/
def merge_csv_to_excel_app : List FileCtx → List Sheet
  | [] => []
  | f :: fs => processSheetsApp f ++ merge_csv_to_excel_app fs

/-- A file the per-file loop fully succeeds on. -/
def Succeeds (f : FileCtx) : Prop :=
  (try_encodings f.probe f.detected).isSome ∧ (read_csv_safely f.parsed).isSome

instance (f : FileCtx) : Decidable (Succeeds f) := by
  unfold Succeeds; infer_instance

/-- A concrete file every probe rejects: `try_encodings` raises. -/
def failCtx : FileCtx :=
  ⟨String.toList ("bad.csv"), fun _ => false, none, none, none⟩

/-- A concrete file that fully succeeds. -/
def okCtx : FileCtx :=
  ⟨String.toList ("good.csv"), fun _ => true, none, some [], some [[[('a')]]]⟩

/-! ## Byte-level codecs (model of the Python `codecs` machinery backing
`codecs.open(..., encoding=...)` for the eight fixed candidate names)

Code points are `Nat`s; a decoded text is a `List Nat`.  Each codec has
a full decoder (decode every byte), a probe decoder (decode until three
newline characters have been produced, matching the resolver reading
three lines, leaving the remaining bytes unread) and an encoder
(`none` on code points outside the codec's range). -/

/-- A Unicode scalar value: below 0x110000 and not a surrogate. -/
def ValidScalar (c : Nat) : Bool :=
  decide (c < 1114112) && (decide (c < 55296) || decide (57344 ≤ c))

/-- Strict UTF-8: decode one character off the front of a byte list
(rejecting overlong forms, surrogates and out-of-range values, as
CPython's strict `utf-8` codec does). -/
def utf8DecodeChar : List Nat → Option (Nat × List Nat)
  | [] => none
  | b :: bs =>
    if b < 128 then some (b, bs)
    else if b < 194 then none
    else if b < 224 then
      match bs with
      | b2 :: r =>
        if 128 ≤ b2 ∧ b2 < 192 then some ((b - 192) * 64 + (b2 - 128), r)
        else none
      | [] => none
    else if b < 240 then
      match bs with
      | b2 :: b3 :: r =>
        if 128 ≤ b2 ∧ b2 < 192 ∧ 128 ≤ b3 ∧ b3 < 192 then
          if (b - 224) * 4096 + (b2 - 128) * 64 + (b3 - 128) < 2048 then none
          else if 55296 ≤ (b - 224) * 4096 + (b2 - 128) * 64 + (b3 - 128) ∧
              (b - 224) * 4096 + (b2 - 128) * 64 + (b3 - 128) < 57344 then none
          else some ((b - 224) * 4096 + (b2 - 128) * 64 + (b3 - 128), r)
        else none
      | _ => none
    else if b < 245 then
      match bs with
      | b2 :: b3 :: b4 :: r =>
        if 128 ≤ b2 ∧ b2 < 192 ∧ 128 ≤ b3 ∧ b3 < 192 ∧ 128 ≤ b4 ∧ b4 < 192 then
          if (b - 240) * 262144 + (b2 - 128) * 4096 + (b3 - 128) * 64 +
              (b4 - 128) < 65536 then none
          else if 1114111 < (b - 240) * 262144 + (b2 - 128) * 4096 +
              (b3 - 128) * 64 + (b4 - 128) then none
          else some ((b - 240) * 262144 + (b2 - 128) * 4096 + (b3 - 128) * 64 +
              (b4 - 128), r)
        else none
      | _ => none
    else none

/-- UTF-8 bytes of one scalar value. -/
def utf8EncodeChar (c : Nat) : List Nat :=
  if c < 128 then [c]
  else if c < 2048 then [192 + c / 64, 128 + c % 64]
  else if c < 65536 then [224 + c / 4096, 128 + c / 64 % 64, 128 + c % 64]
  else [240 + c / 262144, 128 + c / 4096 % 64, 128 + c / 64 % 64, 128 + c % 64]

/-- Fueled full UTF-8 decode (one unit of fuel per decoded character;
`bs.length` fuel always suffices). -/
def utf8DecodeAux : Nat → List Nat → Option (List Nat)
  | _, [] => some []
  | 0, _ :: _ => none
  | fuel + 1, b :: bs =>
    match utf8DecodeChar (b :: bs) with
    | none => none
    | some (c, rest) =>
      match utf8DecodeAux fuel rest with
      | none => none
      | some cs => some (c :: cs)

/-- Full UTF-8 decode of a byte list. -/
def utf8Decode (bs : List Nat) : Option (List Nat) := utf8DecodeAux bs.length bs

/-- Fueled UTF-8 probe decode: stop (successfully) once the given
number of newline characters has been produced, leaving the rest of the
bytes unread — exactly what reading that many lines does. -/
def utf8DecodeLinesAux : Nat → Nat → List Nat → Option (List Nat)
  | _, 0, _ => some []
  | _, _, [] => some []
  | 0, _ + 1, _ :: _ => none
  | fuel + 1, n + 1, b :: bs =>
    match utf8DecodeChar (b :: bs) with
    | none => none
    | some (c, rest) =>
      match utf8DecodeLinesAux fuel (if c = 10 then n else n + 1) rest with
      | none => none
      | some cs => some (c :: cs)

/-- The 3-line UTF-8 probe of the resolver. -/
def utf8ProbeDecode (bs : List Nat) : Option (List Nat) :=
  utf8DecodeLinesAux bs.length 3 bs

/-- UTF-8 encode (fails on non-scalar code points, as `str.encode`
cannot even hold them). -/
def utf8Encode : List Nat → Option (List Nat)
  | [] => some []
  | c :: cs =>
    if ValidScalar c then (utf8Encode cs).map (fun e => utf8EncodeChar c ++ e)
    else none

/-- `utf-8-sig` full decode: an optional leading BOM is stripped. -/
def utf8sigDecode (bs : List Nat) : Option (List Nat) :=
  if bs.take 3 = [239, 187, 191] then utf8Decode (bs.drop 3) else utf8Decode bs

/-- `utf-8-sig` probe decode. -/
def utf8sigProbeDecode (bs : List Nat) : Option (List Nat) :=
  if bs.take 3 = [239, 187, 191] then utf8ProbeDecode (bs.drop 3)
  else utf8ProbeDecode bs

/-- `utf-8-sig` encode: a BOM is always prepended. -/
def utf8sigEncode (cs : List Nat) : Option (List Nat) :=
  (utf8Encode cs).map (fun e => 239 :: 187 :: 191 :: e)

/-- One UTF-16 code unit from two bytes, per endianness. -/
def u16val (be : Bool) (b1 b2 : Nat) : Nat :=
  if be then b1 * 256 + b2 else b2 * 256 + b1

/-- Two bytes of one UTF-16 code unit (`u < 65536`), per endianness. -/
def u16bytes (be : Bool) (u : Nat) : List Nat :=
  if be then [u / 256, u % 256] else [u % 256, u / 256]

/-- Fueled full UTF-16 decode without BOM handling (`utf-16le` /
`utf-16be`): code units pair into surrogate pairs; a lone surrogate, or
a truncated unit or pair at the end, is an error. -/
def utf16DecodeAux (be : Bool) : Nat → List Nat → Option (List Nat)
  | _, [] => some []
  | 0, _ :: _ => none
  | _ + 1, [_] => none
  | fuel + 1, b1 :: b2 :: bs =>
    if u16val be b1 b2 < 55296 ∨ 57344 ≤ u16val be b1 b2 then
      match utf16DecodeAux be fuel bs with
      | none => none
      | some cs => some (u16val be b1 b2 :: cs)
    else if u16val be b1 b2 < 56320 then
      match bs with
      | b3 :: b4 :: bs2 =>
        if 56320 ≤ u16val be b3 b4 ∧ u16val be b3 b4 < 57344 then
          match utf16DecodeAux be fuel bs2 with
          | none => none
          | some cs => some ((65536 + (u16val be b1 b2 - 55296) * 1024 +
              (u16val be b3 b4 - 56320)) :: cs)
        else none
      | _ => none
    else none

/-- Full UTF-16 decode (explicit endianness). -/
def utf16Decode (be : Bool) (bs : List Nat) : Option (List Nat) :=
  utf16DecodeAux be bs.length bs

/-- Fueled UTF-16 probe decode, stopping after the given number of
newlines (a newline is the code unit 10; surrogates are never 10). -/
def utf16DecodeLinesAux (be : Bool) : Nat → Nat → List Nat → Option (List Nat)
  | _, 0, _ => some []
  | _, _, [] => some []
  | 0, _ + 1, _ :: _ => none
  | _ + 1, _ + 1, [_] => none
  | fuel + 1, n + 1, b1 :: b2 :: bs =>
    if u16val be b1 b2 < 55296 ∨ 57344 ≤ u16val be b1 b2 then
      match utf16DecodeLinesAux be fuel
          (if u16val be b1 b2 = 10 then n else n + 1) bs with
      | none => none
      | some cs => some (u16val be b1 b2 :: cs)
    else if u16val be b1 b2 < 56320 then
      match bs with
      | b3 :: b4 :: bs2 =>
        if 56320 ≤ u16val be b3 b4 ∧ u16val be b3 b4 < 57344 then
          match utf16DecodeLinesAux be fuel (n + 1) bs2 with
          | none => none
          | some cs => some ((65536 + (u16val be b1 b2 - 55296) * 1024 +
              (u16val be b3 b4 - 56320)) :: cs)
        else none
      | _ => none
    else none

/-- The 3-line UTF-16 probe. -/
def utf16ProbeDecode (be : Bool) (bs : List Nat) : Option (List Nat) :=
  utf16DecodeLinesAux be bs.length 3 bs

/-- UTF-16 bytes of one scalar value. -/
def utf16EncodeChar (be : Bool) (c : Nat) : List Nat :=
  if c < 65536 then u16bytes be c
  else u16bytes be (55296 + (c - 65536) / 1024) ++
    u16bytes be (56320 + (c - 65536) % 1024)

/-- UTF-16 encode without BOM. -/
def utf16Encode (be : Bool) : List Nat → Option (List Nat)
  | [] => some []
  | c :: cs =>
    if ValidScalar c then (utf16Encode be cs).map (fun e => utf16EncodeChar be c ++ e)
    else none

/-- The `utf-16` codec's full decode: a BOM selects the byte order and
is stripped; with no BOM the platform's (little-endian) order is used,
as CPython does. -/
def utf16BomDecode (bs : List Nat) : Option (List Nat) :=
  if bs.take 2 = [255, 254] then utf16Decode false (bs.drop 2)
  else if bs.take 2 = [254, 255] then utf16Decode true (bs.drop 2)
  else utf16Decode false bs

/-- The `utf-16` codec's probe decode. -/
def utf16BomProbeDecode (bs : List Nat) : Option (List Nat) :=
  if bs.take 2 = [255, 254] then utf16ProbeDecode false (bs.drop 2)
  else if bs.take 2 = [254, 255] then utf16ProbeDecode true (bs.drop 2)
  else utf16ProbeDecode false bs

/-- The `utf-16` codec's encode: little-endian BOM then little-endian
code units. -/
def utf16BomEncode (cs : List Nat) : Option (List Nat) :=
  (utf16Encode false cs).map (fun e => 255 :: 254 :: e)

/-- One-byte-per-character full decode, given a byte table. -/
def sbDecode (dec : Nat → Option Nat) : List Nat → Option (List Nat)
  | [] => some []
  | b :: bs =>
    match dec b with
    | none => none
    | some c =>
      match sbDecode dec bs with
      | none => none
      | some cs => some (c :: cs)

/-- One-byte-per-character probe decode, stopping after the given
number of newlines. -/
def sbDecodeLinesAux (dec : Nat → Option Nat) : Nat → List Nat → Option (List Nat)
  | 0, _ => some []
  | _, [] => some []
  | n + 1, b :: bs =>
    match dec b with
    | none => none
    | some c =>
      match sbDecodeLinesAux dec (if c = 10 then n else n + 1) bs with
      | none => none
      | some cs => some (c :: cs)

/-- The 3-line single-byte probe. -/
def sbProbeDecode (dec : Nat → Option Nat) (bs : List Nat) : Option (List Nat) :=
  sbDecodeLinesAux dec 3 bs

/-- One-character-per-byte encode, given a reverse table. -/
def sbEncode (enc : Nat → Option Nat) : List Nat → Option (List Nat)
  | [] => some []
  | c :: cs =>
    match enc c with
    | none => none
    | some b =>
      match sbEncode enc cs with
      | none => none
      | some bs => some (b :: bs)

/-- `ascii` byte table. -/
def asciiByte (b : Nat) : Option Nat := if b < 128 then some b else none

/-- `ascii` reverse table. -/
def asciiEnc (c : Nat) : Option Nat := if c < 128 then some c else none

/-- `iso-8859-1` byte table (identity on all bytes). -/
def latin1Byte (b : Nat) : Option Nat := if b < 256 then some b else none

/-- `iso-8859-1` reverse table. -/
def latin1Enc (c : Nat) : Option Nat := if c < 256 then some c else none

/-- The Windows-1252 mapping of the bytes 0x80-0x9F (the five bytes
0x81, 0x8D, 0x8F, 0x90 and 0x9D are undefined). -/
def cp1252Table : List (Nat × Nat) :=
  [(128, 8364), (130, 8218), (131, 402), (132, 8222), (133, 8230),
   (134, 8224), (135, 8225), (136, 710), (137, 8240), (138, 352),
   (139, 8249), (140, 338), (142, 381), (145, 8216), (146, 8217),
   (147, 8220), (148, 8221), (149, 8226), (150, 8211), (151, 8212),
   (152, 732), (153, 8482), (154, 353), (155, 8250), (156, 339),
   (158, 382), (159, 376)]

/-- `cp1252` byte table: ASCII and 0xA0-0xFF map to themselves,
0x80-0x9F map through the Windows-1252 table. -/
def cp1252Byte (b : Nat) : Option Nat :=
  if b < 128 then some b
  else if b < 160 then (cp1252Table.find? (fun p => p.1 = b)).map (fun p => p.2)
  else if b < 256 then some b
  else none

/-- `cp1252` reverse table. -/
def cp1252Enc (c : Nat) : Option Nat :=
  if c < 128 then some c
  else if 160 ≤ c ∧ c < 256 then some c
  else (cp1252Table.find? (fun p => p.2 = c)).map (fun p => p.1)

/-- Full decode under a candidate encoding name (unsupported names
decode nothing; a `chardet` guess outside this table would in fact
raise an uncaught `LookupError` in the source, so the round-trip
statement restricts guesses to the supported table). -/
def decodeWith : String → List Nat → Option (List Nat)
  | "utf-8-sig", bs => utf8sigDecode bs
  | "utf-16", bs => utf16BomDecode bs
  | "utf-16le", bs => utf16Decode false bs
  | "utf-16be", bs => utf16Decode true bs
  | "utf-8", bs => utf8Decode bs
  | "ascii", bs => sbDecode asciiByte bs
  | "iso-8859-1", bs => sbDecode latin1Byte bs
  | "cp1252", bs => sbDecode cp1252Byte bs
  | _, _ => none

/-- 3-line probe decode under a candidate encoding name. -/
def probeDecodeWith : String → List Nat → Option (List Nat)
  | "utf-8-sig", bs => utf8sigProbeDecode bs
  | "utf-16", bs => utf16BomProbeDecode bs
  | "utf-16le", bs => utf16ProbeDecode false bs
  | "utf-16be", bs => utf16ProbeDecode true bs
  | "utf-8", bs => utf8ProbeDecode bs
  | "ascii", bs => sbProbeDecode asciiByte bs
  | "iso-8859-1", bs => sbProbeDecode latin1Byte bs
  | "cp1252", bs => sbProbeDecode cp1252Byte bs
  | _, _ => none

/-- Encode under a candidate encoding name. -/
def encodeWith : String → List Nat → Option (List Nat)
  | "utf-8-sig", cs => utf8sigEncode cs
  | "utf-16", cs => utf16BomEncode cs
  | "utf-16le", cs => utf16Encode false cs
  | "utf-16be", cs => utf16Encode true cs
  | "utf-8", cs => utf8Encode cs
  | "ascii", cs => sbEncode asciiEnc cs
  | "iso-8859-1", cs => sbEncode latin1Enc cs
  | "cp1252", cs => sbEncode cp1252Enc cs
  | _, _ => none

/-- `try_encodings` run on actual bytes: the probe oracle is the
byte-level 3-line probe decode. -/
def resolveBytes (bs : List Nat) (detected : Option DetectResult) : Option String :=
  try_encodings (fun e => (probeDecodeWith e bs).isSome) detected

/-- The detector result, when confident enough to be prepended, names a
supported encoding (anything else would raise `LookupError` out of the
resolver, outside the claim's scope). -/
def GuessSupported (detected : Option DetectResult) : Prop :=
  ∀ d, detected = some d → d.confidence > (7 : Rat) / 10 → d.encoding ∈ encodings

/-! ## Resolver iteration lemmas -/

theorem firstThat_eq_none_iff (p : String → Bool) (l : List String) :
    firstThat p l = none ↔ ∀ e ∈ l, p e = false := by
  induction l with
  | nil => simp [firstThat]
  | cons a l ih =>
    by_cases h : p a
    · simp [firstThat, h]
    · simp [firstThat, h, ih]

theorem firstThat_eq_some_iff (p : String → Bool) (l : List String) (e : String) :
    firstThat p l = some e ↔ IsFirstSuccess p l e := by
  induction l with
  | nil =>
    constructor
    · intro h; simp [firstThat] at h
    · rintro ⟨l1, l2, hsplit, -, -⟩
      exact absurd hsplit (by simp)
  | cons a l ih =>
    constructor
    · intro h
      by_cases hp : p a
      · simp only [firstThat, hp, if_true, Option.some.injEq] at h
        subst h
        exact ⟨[], l, rfl, hp, by simp⟩
      · simp only [firstThat, hp, if_false, Bool.false_eq_true] at h
        obtain ⟨l1, l2, rfl, he, hall⟩ := ih.mp h
        refine ⟨a :: l1, l2, rfl, he, ?_⟩
        intro x hx
        rcases List.mem_cons.mp hx with h1 | h1
        · subst h1; exact Bool.eq_false_iff.mpr hp
        · exact hall x h1
    · rintro ⟨l1, l2, hsplit, he, hall⟩
      cases l1 with
      | nil =>
        simp only [List.nil_append, List.cons.injEq] at hsplit
        obtain ⟨rfl, rfl⟩ := hsplit
        simp [firstThat, he]
      | cons b l1 =>
        simp only [List.cons_append, List.cons.injEq] at hsplit
        obtain ⟨hab, hl⟩ := hsplit
        subst hab
        have hpb : p a = false := hall a (by simp)
        have hstep : firstThat p (a :: l) = firstThat p l := by
          simp [firstThat, hpb]
        rw [hstep]
        exact ih.mpr ⟨l1, l2, hl, he, fun x hx => hall x (by simp [hx])⟩

/-- C1: the resolver iterates the guess-prepended-when-confident
candidate list over the fixed eight encodings, and returns exactly the
first candidate whose 3-line probe decode succeeds. -/
theorem try_encodings_first_success (decodes : String → Bool)
    (detected : Option DetectResult) (e : String) :
    (candidate_list detected =
      (match detected with
       | none => []
       | some d => if d.confidence > (7 : Rat) / 10 then [d.encoding] else []) ++
      [("utf-8-sig"), ("utf-16"), ("utf-16le"), ("utf-16be"),
       ("utf-8"), ("ascii"), ("iso-8859-1"), ("cp1252")]) ∧
    (try_encodings decodes detected = some e ↔
      IsFirstSuccess decodes (candidate_list detected) e) := by
  constructor
  · cases detected with
    | none => simp [candidate_list, encodings]
    | some d =>
      by_cases h : d.confidence > (7 : Rat) / 10 <;>
        simp [candidate_list, encodings, h]
  · exact firstThat_eq_some_iff decodes (candidate_list detected) e

/-- Witness for C1 at a concrete oracle: with no detector result, the
first candidate accepted by an oracle accepting only utf-8 is utf-8,
preceded by five rejected candidates. -/
theorem try_encodings_first_success_witness :
    IsFirstSuccess (fun s => s == ("utf-8")) (candidate_list none) ("utf-8") :=
  (try_encodings_first_success (fun s => s == ("utf-8")) none ("utf-8")).2.mp
    (by decide)

/-- C3: the resolver raises `ValueError` (modelled `none`) iff no
candidate in the full search list decodes the probe; if any candidate
decodes, it returns an encoding name. -/
theorem try_encodings_fails_iff (decodes : String → Bool)
    (detected : Option DetectResult) :
    (try_encodings decodes detected = none ↔
      ∀ e ∈ candidate_list detected, decodes e = false) ∧
    (∀ e ∈ candidate_list detected, decodes e = true →
      (try_encodings decodes detected).isSome) := by
  constructor
  · exact firstThat_eq_none_iff decodes (candidate_list detected)
  · intro e he hd
    cases hopt : try_encodings decodes detected with
    | some _ => rfl
    | none =>
      have := (firstThat_eq_none_iff decodes (candidate_list detected)).mp hopt e he
      rw [hd] at this
      exact absurd this (by simp)

/-- Witness for C3: an all-rejecting oracle makes the resolver fail,
and an oracle accepting cp1252 makes it succeed. -/
theorem try_encodings_fails_iff_witness :
    try_encodings (fun _ => false) none = none ∧
    (try_encodings (fun s => s == ("cp1252")) none).isSome := by
  constructor
  · exact (try_encodings_fails_iff (fun _ => false) none).1.mpr
      (fun e _ => rfl)
  · exact (try_encodings_fails_iff (fun s => s == ("cp1252")) none).2
      ("cp1252") (by decide) (by decide)

/-! ## Delimiter detector lemmas -/

theorem pyMaxAux_mem (acc : Char × Nat) (ps : List (Char × Nat)) :
    pyMaxAux acc ps = acc ∨ pyMaxAux acc ps ∈ ps := by
  induction ps generalizing acc with
  | nil => exact Or.inl rfl
  | cons q qs ih =>
    have hstep : pyMaxAux acc (q :: qs) =
        pyMaxAux (if acc.2 < q.2 then q else acc) qs := rfl
    rcases ih (if acc.2 < q.2 then q else acc) with h | h
    · rw [hstep, h]
      by_cases hc : acc.2 < q.2
      · right; simp [hc]
      · left; simp [hc]
    · right; rw [hstep]; exact List.mem_cons_of_mem q h

theorem max4_eq (c1 c2 c3 c4 m : Nat) (h1 : c1 ≤ m) (h2 : c2 ≤ m)
    (h3 : c3 ≤ m) (h4 : c4 ≤ m)
    (hm : m = c1 ∨ m = c2 ∨ m = c3 ∨ m = c4) :
    m = Nat.max (Nat.max (Nat.max (Nat.max 0 c1) c2) c3) c4 := by
  apply Nat.le_antisymm
  · have k1 : c1 ≤ Nat.max (Nat.max (Nat.max (Nat.max 0 c1) c2) c3) c4 :=
      le_trans (Nat.le_max_right 0 c1)
        (le_trans (Nat.le_max_left _ c2)
          (le_trans (Nat.le_max_left _ c3) (Nat.le_max_left _ c4)))
    have k2 : c2 ≤ Nat.max (Nat.max (Nat.max (Nat.max 0 c1) c2) c3) c4 :=
      le_trans (Nat.le_max_right _ c2)
        (le_trans (Nat.le_max_left _ c3) (Nat.le_max_left _ c4))
    have k3 : c3 ≤ Nat.max (Nat.max (Nat.max (Nat.max 0 c1) c2) c3) c4 :=
      le_trans (Nat.le_max_right _ c3) (Nat.le_max_left _ c4)
    have k4 : c4 ≤ Nat.max (Nat.max (Nat.max (Nat.max 0 c1) c2) c3) c4 :=
      Nat.le_max_right _ c4
    rcases hm with rfl | rfl | rfl | rfl
    · exact k1
    · exact k2
    · exact k3
    · exact k4
  · exact Nat.max_le.mpr ⟨Nat.max_le.mpr ⟨Nat.max_le.mpr
      ⟨Nat.max_le.mpr ⟨Nat.zero_le m, h1⟩, h2⟩, h3⟩, h4⟩

/-- C2: when the maximum raw count over the first line is nonzero, the
detector returns a candidate attaining the maximum, and every candidate
declared before it has a strictly smaller count (earliest-wins
tie-breaking, comma first). -/
theorem detect_delimiter_max (line : List Char)
    (h : 0 < maxValues ((delimCounts line).map (fun p => p.2))) :
    ∃ l1 l2,
      common_delimiters = l1 ++ detect_delimiter (some line) :: l2 ∧
      line.count (detect_delimiter (some line)) =
        maxValues ((delimCounts line).map (fun p => p.2)) ∧
      ∀ d ∈ l1, line.count d < line.count (detect_delimiter (some line)) := by
  have hmax : maxValues ((delimCounts line).map (fun p => p.2)) =
      Nat.max (Nat.max (Nat.max (Nat.max 0 (line.count (',')))
        (line.count ('\t'))) (line.count (';'))) (line.count ('|')) := rfl
  have hdet : detect_delimiter (some line) =
      if 0 < Nat.max (Nat.max (Nat.max (Nat.max 0 (line.count (',')))
          (line.count ('\t'))) (line.count (';'))) (line.count ('|')) then
        (pyMaxAux ((','), line.count (','))
          [(('\t'), line.count ('\t')), ((';'), line.count (';')),
           (('|'), line.count ('|'))]).1
      else (',') := rfl
  rw [hmax] at h
  rw [hdet, hmax, if_pos h]
  by_cases h12 : line.count (',') < line.count ('\t')
  · by_cases h23 : line.count ('\t') < line.count (';')
    · by_cases h34 : line.count (';') < line.count ('|')
      · have hr : (pyMaxAux ((','), line.count (','))
            [(('\t'), line.count ('\t')), ((';'), line.count (';')),
             (('|'), line.count ('|'))]).1 = ('|') := by
          simp [pyMaxAux, h12, h23, h34]
        rw [hr]
        refine ⟨[(','), ('\t'), (';')], [], rfl,
          max4_eq (line.count (',')) (line.count ('\t')) (line.count (';'))
            (line.count ('|')) (line.count ('|')) (by omega) (by omega)
            (by omega) (by omega) (Or.inr (Or.inr (Or.inr rfl))), ?_⟩
        intro d hd
        fin_cases hd <;> omega
      · have hr : (pyMaxAux ((','), line.count (','))
            [(('\t'), line.count ('\t')), ((';'), line.count (';')),
             (('|'), line.count ('|'))]).1 = (';') := by
          simp [pyMaxAux, h12, h23, h34]
        rw [hr]
        refine ⟨[(','), ('\t')], [('|')], rfl,
          max4_eq (line.count (',')) (line.count ('\t')) (line.count (';'))
            (line.count ('|')) (line.count (';')) (by omega) (by omega)
            (by omega) (by omega) (Or.inr (Or.inr (Or.inl rfl))), ?_⟩
        intro d hd
        fin_cases hd <;> omega
    · by_cases h24 : line.count ('\t') < line.count ('|')
      · have hr : (pyMaxAux ((','), line.count (','))
            [(('\t'), line.count ('\t')), ((';'), line.count (';')),
             (('|'), line.count ('|'))]).1 = ('|') := by
          simp [pyMaxAux, h12, h23, h24]
        rw [hr]
        refine ⟨[(','), ('\t'), (';')], [], rfl,
          max4_eq (line.count (',')) (line.count ('\t')) (line.count (';'))
            (line.count ('|')) (line.count ('|')) (by omega) (by omega)
            (by omega) (by omega) (Or.inr (Or.inr (Or.inr rfl))), ?_⟩
        intro d hd
        fin_cases hd <;> omega
      · have hr : (pyMaxAux ((','), line.count (','))
            [(('\t'), line.count ('\t')), ((';'), line.count (';')),
             (('|'), line.count ('|'))]).1 = ('\t') := by
          simp [pyMaxAux, h12, h23, h24]
        rw [hr]
        refine ⟨[(',')], [(';'), ('|')], rfl,
          max4_eq (line.count (',')) (line.count ('\t')) (line.count (';'))
            (line.count ('|')) (line.count ('\t')) (by omega) (by omega)
            (by omega) (by omega) (Or.inr (Or.inl rfl)), ?_⟩
        intro d hd
        fin_cases hd
        omega
  · by_cases h13 : line.count (',') < line.count (';')
    · by_cases h34 : line.count (';') < line.count ('|')
      · have hr : (pyMaxAux ((','), line.count (','))
            [(('\t'), line.count ('\t')), ((';'), line.count (';')),
             (('|'), line.count ('|'))]).1 = ('|') := by
          simp [pyMaxAux, h12, h13, h34]
        rw [hr]
        refine ⟨[(','), ('\t'), (';')], [], rfl,
          max4_eq (line.count (',')) (line.count ('\t')) (line.count (';'))
            (line.count ('|')) (line.count ('|')) (by omega) (by omega)
            (by omega) (by omega) (Or.inr (Or.inr (Or.inr rfl))), ?_⟩
        intro d hd
        fin_cases hd <;> omega
      · have hr : (pyMaxAux ((','), line.count (','))
            [(('\t'), line.count ('\t')), ((';'), line.count (';')),
             (('|'), line.count ('|'))]).1 = (';') := by
          simp [pyMaxAux, h12, h13, h34]
        rw [hr]
        refine ⟨[(','), ('\t')], [('|')], rfl,
          max4_eq (line.count (',')) (line.count ('\t')) (line.count (';'))
            (line.count ('|')) (line.count (';')) (by omega) (by omega)
            (by omega) (by omega) (Or.inr (Or.inr (Or.inl rfl))), ?_⟩
        intro d hd
        fin_cases hd <;> omega
    · by_cases h14 : line.count (',') < line.count ('|')
      · have hr : (pyMaxAux ((','), line.count (','))
            [(('\t'), line.count ('\t')), ((';'), line.count (';')),
             (('|'), line.count ('|'))]).1 = ('|') := by
          simp [pyMaxAux, h12, h13, h14]
        rw [hr]
        refine ⟨[(','), ('\t'), (';')], [], rfl,
          max4_eq (line.count (',')) (line.count ('\t')) (line.count (';'))
            (line.count ('|')) (line.count ('|')) (by omega) (by omega)
            (by omega) (by omega) (Or.inr (Or.inr (Or.inr rfl))), ?_⟩
        intro d hd
        fin_cases hd <;> omega
      · have hr : (pyMaxAux ((','), line.count (','))
            [(('\t'), line.count ('\t')), ((';'), line.count (';')),
             (('|'), line.count ('|'))]).1 = (',') := by
          simp [pyMaxAux, h12, h13, h14]
        rw [hr]
        exact ⟨[], [('\t'), (';'), ('|')], rfl,
          max4_eq (line.count (',')) (line.count ('\t')) (line.count (';'))
            (line.count ('|')) (line.count (',')) (by omega) (by omega)
            (by omega) (by omega) (Or.inl rfl), by simp⟩

/-- Witness for C2 on the spec's example line `a,b;c;d`: the detector
picks `;` (count 2 beats comma's count 1). -/
theorem detect_delimiter_max_witness :
    ∃ l1 l2,
      common_delimiters =
        l1 ++ detect_delimiter (some (String.toList ("a,b;c;d"))) :: l2 ∧
      (String.toList ("a,b;c;d")).count
          (detect_delimiter (some (String.toList ("a,b;c;d")))) =
        maxValues ((delimCounts (String.toList ("a,b;c;d"))).map (fun p => p.2)) ∧
      ∀ d ∈ l1,
        (String.toList ("a,b;c;d")).count d <
          (String.toList ("a,b;c;d")).count
            (detect_delimiter (some (String.toList ("a,b;c;d")))) :=
  detect_delimiter_max (String.toList ("a,b;c;d")) (by decide)

/-- C5: the detector never fails: for every input (including a read
error, an empty line, and a line with no candidate occurrences) it
returns a member of the fixed candidate set, and returns comma on a read
error or a zero maximum count. -/
theorem detect_delimiter_total (o : Option (List Char)) :
    detect_delimiter o ∈ common_delimiters ∧
    detect_delimiter none = (',') ∧
    (∀ line, o = some line →
      maxValues ((delimCounts line).map (fun p => p.2)) = 0 →
      detect_delimiter o = (',')) := by
  refine ⟨?_, rfl, ?_⟩
  · cases o with
    | none => simp [detect_delimiter, common_delimiters]
    | some line =>
      have hdet : detect_delimiter (some line) =
          if 0 < Nat.max (Nat.max (Nat.max (Nat.max 0 (line.count (',')))
              (line.count ('\t'))) (line.count (';'))) (line.count ('|')) then
            (pyMaxAux ((','), line.count (','))
              [(('\t'), line.count ('\t')), ((';'), line.count (';')),
               (('|'), line.count ('|'))]).1
          else (',') := rfl
      rw [hdet]
      by_cases hm : 0 < Nat.max (Nat.max (Nat.max (Nat.max 0 (line.count (',')))
          (line.count ('\t'))) (line.count (';'))) (line.count ('|'))
      · rw [if_pos hm]
        rcases pyMaxAux_mem ((','), line.count (','))
            [(('\t'), line.count ('\t')), ((';'), line.count (';')),
             (('|'), line.count ('|'))] with hmem | hmem
        · rw [hmem]; simp [common_delimiters]
        · simp only [List.mem_cons, List.not_mem_nil, or_false] at hmem
          rcases hmem with hmem | hmem | hmem <;>
            (rw [hmem]; simp [common_delimiters])
      · rw [if_neg hm]; simp [common_delimiters]
  · intro line ho hm
    subst ho
    have hdet : detect_delimiter (some line) =
        if 0 < Nat.max (Nat.max (Nat.max (Nat.max 0 (line.count (',')))
            (line.count ('\t'))) (line.count (';'))) (line.count ('|')) then
          (pyMaxAux ((','), line.count (','))
            [(('\t'), line.count ('\t')), ((';'), line.count (';')),
             (('|'), line.count ('|'))]).1
        else (',') := rfl
    have hm' : maxValues ((delimCounts line).map (fun p => p.2)) =
        Nat.max (Nat.max (Nat.max (Nat.max 0 (line.count (',')))
          (line.count ('\t'))) (line.count (';'))) (line.count ('|')) := rfl
    rw [hm'] at hm
    rw [hdet, if_neg (by rw [hm]; simp)]

/-- Witness for C5 on the spec's example `singlecolumn`: no candidate
occurs, so the detector returns comma. -/
theorem detect_delimiter_total_witness :
    detect_delimiter (some (String.toList ("singlecolumn"))) = (',') :=
  (detect_delimiter_total (some (String.toList ("singlecolumn")))).2.2
    (String.toList ("singlecolumn")) rfl (by decide)

/-! ## Row filter and safe reader lemmas -/

/-- C4: a row is kept iff it has at least one field and at least one
field that is nonempty after stripping surrounding whitespace; the
spec's two example rows behave as stated. -/
theorem keep_iff (row : Row) :
    (keep row = true ↔ row ≠ [] ∧ ∃ cell ∈ row, (pyStrip cell).length ≠ 0) ∧
    keep [[], [(' '), (' ')], []] = false ∧
    keep [[], [('x')], []] = true := by
  refine ⟨?_, by decide, by decide⟩
  unfold keep
  rw [Bool.and_eq_true, List.any_eq_true]
  constructor
  · rintro ⟨h1, cell, hc, h2⟩
    refine ⟨by simpa using h1, cell, hc, by simpa using h2⟩
  · rintro ⟨h1, cell, hc, h2⟩
    exact ⟨by simpa using h1, cell, hc, by simpa using h2⟩

theorem foldl_keep_eq (rs : List Row) (acc : List Row) :
    rs.foldl (fun acc r => if keep r then acc ++ [r] else acc) acc =
      acc ++ rs.filter keep := by
  induction rs generalizing acc with
  | nil => simp
  | cons r rs ih =>
    by_cases h : keep r
    · simp [List.foldl_cons, List.filter_cons, h, ih]
    · simp [List.foldl_cons, List.filter_cons, h, ih]

/-- C10: on a fully decoded file the safe reader returns exactly the
kept rows of the parse, in their original order: the result is the
filter of the parsed rows by `keep`, hence an order-preserving sublist
containing every kept row and nothing else. -/
theorem read_csv_safely_spec (rs : List Row) :
    read_csv_safely (some rs) = some (rs.filter keep) ∧
    (rs.filter keep).Sublist rs ∧
    (∀ r ∈ rs.filter keep, keep r = true) ∧
    (∀ r ∈ rs, keep r = true → r ∈ rs.filter keep) := by
  refine ⟨?_, List.filter_sublist rs, ?_, ?_⟩
  · have h0 : read_csv_safely (some rs) =
        some (rs.foldl (fun acc r => if keep r then acc ++ [r] else acc) []) := rfl
    rw [h0, foldl_keep_eq rs []]
    simp
  · intro r hr
    exact List.of_mem_filter hr
  · intro r hr hk
    exact List.mem_filter.mpr ⟨hr, hk⟩

/-- Witness for C10 at a concrete parse: a whitespace-only row is
dropped, the data row survives in order. -/
theorem read_csv_safely_spec_witness :
    read_csv_safely (some [[[(' ')]], [[('a')], []], [[]]]) =
      some ([[[(' ')]], [[('a')], []], [[]]].filter keep) :=
  (read_csv_safely_spec [[[(' ')]], [[('a')], []], [[]]]).1

/-! ## Sheet-name lemmas -/

/-- C7: the sheet name is the extension-stripped input name truncated
to at most 31 characters (unchanged when already short enough), and the
spec's long example yields exactly the first 31 characters of its
stem. -/
theorem sheet_name_spec (name : List Char) :
    (sheet_name name).length ≤ 31 ∧
    (∃ r, stem name = sheet_name name ++ r) ∧
    ((stem name).length ≤ 31 → sheet_name name = stem name) ∧
    sheet_name
        (String.toList ("very-long-filename-exceeding-thirty-one-characters.csv")) =
      String.toList ("very-long-filename-exceeding-th") ∧
    (String.toList ("very-long-filename-exceeding-th")).length = 31 := by
  refine ⟨?_, ⟨(stem name).drop 31, (List.take_append_drop 31 (stem name)).symm⟩,
    ?_, by decide, by decide⟩
  · unfold sheet_name
    simp
  · intro h
    unfold sheet_name
    exact List.take_of_length_le h

/-- Witness for C7: a short name is left whole after extension
stripping. -/
theorem sheet_name_spec_witness :
    sheet_name (String.toList ("a.csv")) = stem (String.toList ("a.csv")) :=
  (sheet_name_spec (String.toList ("a.csv"))).2.2.1 (by decide)

/-! ## Merge orchestration lemmas -/

theorem merge_append (fs1 fs2 : List FileCtx) :
    merge_csv_to_excel (fs1 ++ fs2) =
      merge_csv_to_excel fs1 ++ merge_csv_to_excel fs2 := by
  induction fs1 with
  | nil => simp [merge_csv_to_excel]
  | cons f fs ih => simp [merge_csv_to_excel, ih]

theorem mem_merge_of_mem (fs : List FileCtx) (g : FileCtx) (hg : g ∈ fs)
    (s : Sheet) (hs : s ∈ processSheets g) : s ∈ merge_csv_to_excel fs := by
  induction fs with
  | nil => simp at hg
  | cons f fs ih =>
    have hcons : merge_csv_to_excel (f :: fs) =
        processSheets f ++ merge_csv_to_excel fs := rfl
    rw [hcons]
    rcases List.mem_cons.mp hg with h1 | h1
    · subst h1
      exact List.mem_append_left _ hs
    · exact List.mem_append_right _ (ih h1)

/-- C8: a file that fails (no encoding resolved, or the read raised)
does not abort the batch: the merge of the surrounding files is
unchanged around the failing file's (empty or metadata-only)
contribution, and every sheet of every other file still appears in the
output workbook. -/
theorem merge_continue_on_error (fs1 fs2 : List FileCtx) (f : FileCtx)
    (hf : ¬ Succeeds f) :
    merge_csv_to_excel (fs1 ++ f :: fs2) =
      merge_csv_to_excel fs1 ++ processSheets f ++ merge_csv_to_excel fs2 ∧
    (processSheets f = [] ∨ ∃ enc,
      try_encodings f.probe f.detected = some enc ∧
      processSheets f =
        [⟨sheet_name f.name,
          metadataRows f.name enc (detect_delimiter f.firstLine)⟩]) ∧
    (∀ g ∈ fs1 ++ fs2, ∀ s ∈ processSheets g,
      s ∈ merge_csv_to_excel (fs1 ++ f :: fs2)) := by
  have hcons : merge_csv_to_excel (f :: fs2) =
      processSheets f ++ merge_csv_to_excel fs2 := rfl
  refine ⟨?_, ?_, ?_⟩
  · rw [merge_append, hcons, List.append_assoc]
  · cases henc : try_encodings f.probe f.detected with
    | none => exact Or.inl (by simp [processSheets, henc])
    | some enc =>
      cases hread : read_csv_safely f.parsed with
      | none => exact Or.inr ⟨enc, rfl, by simp [processSheets, henc, hread]⟩
      | some rows =>
        exact absurd ⟨by rw [henc]; rfl, by rw [hread]; rfl⟩ hf
  · intro g hg s hs
    rw [merge_append]
    rcases List.mem_append.mp hg with h1 | h2
    · exact List.mem_append_left _ (mem_merge_of_mem fs1 g h1 s hs)
    · refine List.mem_append_right _ ?_
      rw [hcons]
      exact List.mem_append_right _ (mem_merge_of_mem fs2 g h2 s hs)

/-- Witness for C8: with a failing first file and a succeeding second
one, the merge still equals the failing file's (empty) contribution
followed by the second file's sheets. -/
theorem merge_continue_on_error_witness :
    merge_csv_to_excel ([] ++ failCtx :: [okCtx]) =
      merge_csv_to_excel [] ++ processSheets failCtx ++
        merge_csv_to_excel [okCtx] :=
  (merge_continue_on_error [] [okCtx] failCtx (by decide)).1

/-- C9: a successfully processed file's sheet does not begin with its
CSV data: the main variant's first four rows are the `File Name:`,
`Encoding:`, `Delimiter:` and deliberately-empty metadata rows, the
empty row is in the sheet even though `keep` drops every blank data
row, and the app variant's first row is the `File Name:` row. -/
theorem sheet_metadata_first (f : FileCtx) (enc : String) (rows : List Row)
    (henc : try_encodings f.probe f.detected = some enc)
    (hrows : read_csv_safely f.parsed = some rows) :
    processSheets f =
      [⟨sheet_name f.name,
        metadataRows f.name enc (detect_delimiter f.firstLine) ++ rows⟩] ∧
    (∀ s ∈ processSheets f,
      s.rows.take 4 =
        [[(String.toList ("File Name: ")) ++ f.name],
         [(String.toList ("Encoding: ")) ++ enc.toList],
         [(String.toList ("Delimiter: ")) ++ [detect_delimiter f.firstLine]],
         []] ∧
      [] ∈ s.rows ∧
      (∀ r ∈ s.rows.drop 4, keep r = true)) ∧
    keep ([] : Row) = false ∧
    (∀ s ∈ processSheetsApp f,
      s.rows.take 1 = [[(String.toList ("File Name: ")) ++ f.name]]) := by
  have hp : processSheets f =
      [⟨sheet_name f.name,
        metadataRows f.name enc (detect_delimiter f.firstLine) ++ rows⟩] := by
    simp [processSheets, henc, hrows]
  have hrows' : ∀ r ∈ rows, keep r = true := by
    intro r hr
    cases hparsed : f.parsed with
    | none => rw [hparsed] at hrows; exact absurd hrows (by simp [read_csv_safely])
    | some prs =>
      rw [hparsed] at hrows
      have h0 : read_csv_safely (some prs) =
          some (prs.foldl (fun acc r => if keep r then acc ++ [r] else acc) []) := rfl
      rw [h0, foldl_keep_eq prs []] at hrows
      simp only [List.nil_append, Option.some.injEq] at hrows
      subst hrows
      exact List.of_mem_filter hr
  refine ⟨hp, ?_, by decide, ?_⟩
  · intro s hs
    rw [hp] at hs
    simp only [List.mem_singleton] at hs
    subst hs
    refine ⟨rfl, ?_, ?_⟩
    · simp [metadataRows]
    · intro r hr
      have hdrop : (metadataRows f.name enc (detect_delimiter f.firstLine) ++
          rows).drop 4 = rows := rfl
      rw [hdrop] at hr
      exact hrows' r hr
  · intro s hs
    have hq : processSheetsApp f =
        [⟨sheet_name f.name,
          [(String.toList ("File Name: ")) ++ f.name] :: rows⟩] := by
      simp [processSheetsApp, henc, hrows]
    rw [hq] at hs
    simp only [List.mem_singleton] at hs
    subst hs
    rfl

/-- Witness for C9: a concrete succeeding file whose sheet carries the
four metadata rows before its single data row. -/
theorem sheet_metadata_first_witness :
    processSheets okCtx =
      [⟨sheet_name (String.toList ("good.csv")),
        metadataRows (String.toList ("good.csv")) ("utf-8-sig")
          (detect_delimiter (some [])) ++ [[[('a')]]]⟩] :=
  (sheet_metadata_first okCtx ("utf-8-sig") [[[('a')]]]
    (by decide) (by decide)).1

/-! ## UTF-8 codec lemmas -/

theorem utf8EncodeChar_ne_nil (c : Nat) : utf8EncodeChar c ≠ [] := by
  unfold utf8EncodeChar
  split_ifs <;> simp

theorem utf8DecodeChar_enc (c : Nat) (hc : ValidScalar c = true) (rest : List Nat) :
    utf8DecodeChar (utf8EncodeChar c ++ rest) = some (c, rest) := by
  have hc' : c < 1114112 ∧ (c < 55296 ∨ 57344 ≤ c) := by
    unfold ValidScalar at hc
    simpa using hc
  unfold utf8EncodeChar
  by_cases h1 : c < 128
  · rw [if_pos h1]
    show utf8DecodeChar (c :: rest) = some (c, rest)
    simp only [utf8DecodeChar]
    rw [if_pos h1]
  · rw [if_neg h1]
    by_cases h2 : c < 2048
    · rw [if_pos h2]
      show utf8DecodeChar ((192 + c / 64) :: (128 + c % 64) :: rest) = some (c, rest)
      simp only [utf8DecodeChar]
      rw [if_neg (by omega), if_neg (by omega), if_pos (by omega), if_pos (by omega)]
      have hval : (192 + c / 64 - 192) * 64 + (128 + c % 64 - 128) = c := by omega
      rw [hval]
    · rw [if_neg h2]
      by_cases h3 : c < 65536
      · rw [if_pos h3]
        show utf8DecodeChar ((224 + c / 4096) :: (128 + c / 64 % 64) ::
            (128 + c % 64) :: rest) = some (c, rest)
        simp only [utf8DecodeChar]
        rw [if_neg (by omega), if_neg (by omega), if_neg (by omega),
          if_pos (by omega), if_pos (by omega)]
        have hval : (224 + c / 4096 - 224) * 4096 + (128 + c / 64 % 64 - 128) * 64 +
            (128 + c % 64 - 128) = c := by omega
        rw [hval, if_neg (by omega), if_neg (by omega)]
      · rw [if_neg h3]
        show utf8DecodeChar ((240 + c / 262144) :: (128 + c / 4096 % 64) ::
            (128 + c / 64 % 64) :: (128 + c % 64) :: rest) = some (c, rest)
        simp only [utf8DecodeChar]
        rw [if_neg (by omega), if_neg (by omega), if_neg (by omega),
          if_neg (by omega), if_pos (by omega), if_pos (by omega)]
        have hval : (240 + c / 262144 - 240) * 262144 +
            (128 + c / 4096 % 64 - 128) * 4096 + (128 + c / 64 % 64 - 128) * 64 +
            (128 + c % 64 - 128) = c := by omega
        rw [hval, if_neg (by omega), if_neg (by omega)]

theorem utf8DecodeChar_valid : ∀ {bs : List Nat} {c : Nat} {rest : List Nat},
    utf8DecodeChar bs = some (c, rest) → ValidScalar c = true := by
  intro bs c rest h
  unfold ValidScalar
  simp only [Bool.and_eq_true, Bool.or_eq_true, decide_eq_true_eq]
  match bs with
  | [] => simp [utf8DecodeChar] at h
  | b :: bs' =>
    simp only [utf8DecodeChar] at h
    repeat' split at h
    all_goals first
      | (simp only [Option.some.injEq, Prod.mk.injEq] at h
         obtain ⟨rfl, rfl⟩ := h
         omega)
      | simp at h

theorem utf8DecodeChar_length : ∀ {bs : List Nat} {c : Nat} {rest : List Nat},
    utf8DecodeChar bs = some (c, rest) → rest.length < bs.length := by
  intro bs c rest h
  match bs with
  | [] => simp [utf8DecodeChar] at h
  | b :: bs' =>
    simp only [utf8DecodeChar] at h
    repeat' split at h
    all_goals first
      | (simp only [Option.some.injEq, Prod.mk.injEq] at h
         obtain ⟨-, rfl⟩ := h
         simp_all
         omega)
      | (simp only [Option.some.injEq, Prod.mk.injEq] at h
         obtain ⟨-, rfl⟩ := h
         simp_all)
      | simp at h

theorem utf8Lines_isSome_of_decode : ∀ {fuel : Nat} {bs cs : List Nat} {n : Nat},
    utf8DecodeAux fuel bs = some cs →
    (utf8DecodeLinesAux fuel n bs).isSome := by
  intro fuel
  induction fuel with
  | zero =>
    intro bs cs n h
    match bs, n with
    | [], 0 => simp [utf8DecodeLinesAux]
    | [], _ + 1 => simp [utf8DecodeLinesAux]
    | _ :: _, _ => simp [utf8DecodeAux] at h
  | succ fuel ih =>
    intro bs cs n h
    match bs, n with
    | [], 0 => simp [utf8DecodeLinesAux]
    | [], _ + 1 => simp [utf8DecodeLinesAux]
    | _ :: _, 0 => simp [utf8DecodeLinesAux]
    | b :: bs', n' + 1 =>
      cases hchar : utf8DecodeChar (b :: bs') with
      | none => simp [utf8DecodeAux, hchar] at h
      | some pr =>
        obtain ⟨c, rest⟩ := pr
        simp only [utf8DecodeAux, hchar] at h
        simp only [utf8DecodeLinesAux, hchar]
        cases hrec : utf8DecodeAux fuel rest with
        | none => rw [hrec] at h; simp at h
        | some cs' =>
          have hl := ih (n := if c = 10 then n' else n' + 1) hrec
          cases hlv : utf8DecodeLinesAux fuel (if c = 10 then n' else n' + 1) rest with
          | none => rw [hlv] at hl; simp at hl
          | some cs2 => simp [hlv]

theorem utf8DecodeAux_fuel : ∀ (fuel fuel' : Nat) (bs : List Nat),
    bs.length ≤ fuel → bs.length ≤ fuel' →
    utf8DecodeAux fuel bs = utf8DecodeAux fuel' bs := by
  intro fuel
  induction fuel with
  | zero =>
    intro fuel' bs h h'
    have hbs : bs = [] := List.length_eq_zero.mp (Nat.le_zero.mp h)
    subst hbs
    cases fuel' <;> simp [utf8DecodeAux]
  | succ fuel ih =>
    intro fuel' bs h h'
    match bs with
    | [] => cases fuel' <;> simp [utf8DecodeAux]
    | b :: bs' =>
      match fuel' with
      | 0 => simp at h'
      | fuel'' + 1 =>
        cases hchar : utf8DecodeChar (b :: bs') with
        | none => simp only [utf8DecodeAux, hchar]
        | some pr =>
          obtain ⟨c, rest⟩ := pr
          have hlen := utf8DecodeChar_length hchar
          simp only [utf8DecodeAux, hchar]
          rw [ih fuel'' rest (by simp at h hlen ⊢; omega)
            (by simp at h' hlen ⊢; omega)]

theorem utf8Lines_valid : ∀ {fuel n : Nat} {bs t : List Nat},
    utf8DecodeLinesAux fuel n bs = some t → ∀ c ∈ t, ValidScalar c = true := by
  intro fuel
  induction fuel with
  | zero =>
    intro n bs t h c hc
    match bs, n with
    | _, 0 => simp [utf8DecodeLinesAux] at h; subst h; simp at hc
    | [], _ + 1 => simp [utf8DecodeLinesAux] at h; subst h; simp at hc
    | _ :: _, _ + 1 => simp [utf8DecodeLinesAux] at h
  | succ fuel ih =>
    intro n bs t h c hc
    match bs, n with
    | _, 0 => simp [utf8DecodeLinesAux] at h; subst h; simp at hc
    | [], _ + 1 => simp [utf8DecodeLinesAux] at h; subst h; simp at hc
    | b :: bs', n' + 1 =>
      cases hchar : utf8DecodeChar (b :: bs') with
      | none => simp [utf8DecodeLinesAux, hchar] at h
      | some pr =>
        obtain ⟨c0, rest⟩ := pr
        simp only [utf8DecodeLinesAux, hchar] at h
        cases hrec : utf8DecodeLinesAux fuel (if c0 = 10 then n' else n' + 1) rest with
        | none => rw [hrec] at h; simp at h
        | some cs' =>
          rw [hrec] at h
          simp only [Option.some.injEq] at h
          subst h
          rcases List.mem_cons.mp hc with rfl | hc'
          · exact utf8DecodeChar_valid hchar
          · exact ih hrec c hc'

theorem utf8Encode_total : ∀ {t : List Nat},
    (∀ c ∈ t, ValidScalar c = true) → ∃ bs2, utf8Encode t = some bs2 := by
  intro t
  induction t with
  | nil => exact fun _ => ⟨[], rfl⟩
  | cons c t ih =>
    intro hv
    obtain ⟨bs3, hbs3⟩ := ih (fun c' hc' => hv c' (List.mem_cons_of_mem c hc'))
    refine ⟨utf8EncodeChar c ++ bs3, ?_⟩
    have hvc : ValidScalar c = true := hv c (List.mem_cons_self c t)
    simp only [utf8Encode, hvc, if_pos, hbs3]
    rfl

theorem utf8Decode_encode : ∀ {t bs2 : List Nat}, utf8Encode t = some bs2 →
    ∀ {fuel : Nat}, bs2.length ≤ fuel → utf8DecodeAux fuel bs2 = some t := by
  intro t
  induction t with
  | nil =>
    intro bs2 h fuel hf
    have h0 : some ([] : List Nat) = some bs2 := h
    obtain rfl := (Option.some.inj h0).symm
    cases fuel <;> simp [utf8DecodeAux]
  | cons c t ih =>
    intro bs2 h fuel hf
    simp only [utf8Encode] at h
    by_cases hv : ValidScalar c = true
    · rw [if_pos hv] at h
      cases henc : utf8Encode t with
      | none => rw [henc] at h; simp at h
      | some bs3 =>
        rw [henc] at h
        simp only [Option.map_some', Option.some.injEq] at h
        subst h
        obtain ⟨e1, er, hE⟩ : ∃ e1 er, utf8EncodeChar c = e1 :: er := by
          cases hE : utf8EncodeChar c with
          | nil => exact absurd hE (utf8EncodeChar_ne_nil c)
          | cons e1 er => exact ⟨e1, er, rfl⟩
        match fuel with
        | 0 =>
          rw [hE] at hf
          simp at hf
        | f + 1 =>
          have hdc : utf8DecodeChar (utf8EncodeChar c ++ bs3) = some (c, bs3) :=
            utf8DecodeChar_enc c hv bs3
          rw [hE, List.cons_append] at hdc ⊢
          simp only [utf8DecodeAux, hdc]
          rw [ih henc (show bs3.length ≤ f by
            rw [hE] at hf; simp at hf; omega)]
    · rw [if_neg hv] at h
      simp at h

theorem utf8Decode_isSome_drop_bom {rest : List Nat}
    (h : (utf8Decode (239 :: 187 :: 191 :: rest)).isSome) :
    (utf8Decode rest).isSome := by
  have hchar : utf8DecodeChar (239 :: 187 :: 191 :: rest) = some (65279, rest) := by
    simp only [utf8DecodeChar]
    norm_num
  unfold utf8Decode at h
  cases hfull : utf8DecodeAux (239 :: 187 :: 191 :: rest).length
      (239 :: 187 :: 191 :: rest) with
  | none => rw [hfull] at h; simp at h
  | some cs =>
    have hlen : (239 :: 187 :: 191 :: rest).length = rest.length + 2 + 1 := by simp
    rw [hlen] at hfull
    simp only [utf8DecodeAux, hchar] at hfull
    cases hrec : utf8DecodeAux (rest.length + 2) rest with
    | none => rw [hrec] at hfull; simp at hfull
    | some cs' =>
      unfold utf8Decode
      rw [utf8DecodeAux_fuel rest.length (rest.length + 2) rest
        le_rfl (by omega), hrec]
      rfl

theorem utf8_rt {bs t : List Nat} (h : utf8ProbeDecode bs = some t) :
    ∃ bs2, utf8Encode t = some bs2 ∧ utf8Decode bs2 = some t := by
  have hval := utf8Lines_valid
    (show utf8DecodeLinesAux bs.length 3 bs = some t from h)
  obtain ⟨bs2, hbs2⟩ := utf8Encode_total hval
  exact ⟨bs2, hbs2, utf8Decode_encode hbs2 le_rfl⟩

theorem utf8sigProbe_isSome {bs : List Nat} (h : (utf8Decode bs).isSome) :
    (utf8sigProbeDecode bs).isSome := by
  unfold utf8sigProbeDecode
  by_cases hbm : bs.take 3 = [239, 187, 191]
  · rw [if_pos hbm]
    have hbs : bs = 239 :: 187 :: 191 :: bs.drop 3 := by
      conv_lhs => rw [← List.take_append_drop 3 bs]
      rw [hbm]
      rfl
    rw [hbs] at h
    have h2 := utf8Decode_isSome_drop_bom h
    unfold utf8Decode at h2
    cases hx : utf8DecodeAux (bs.drop 3).length (bs.drop 3) with
    | none => rw [hx] at h2; simp at h2
    | some cs => exact utf8Lines_isSome_of_decode (n := 3) hx
  · rw [if_neg hbm]
    unfold utf8Decode at h
    cases hx : utf8DecodeAux bs.length bs with
    | none => rw [hx] at h; simp at h
    | some cs => exact utf8Lines_isSome_of_decode (n := 3) hx

theorem utf8sig_rt {bs t : List Nat} (h : utf8sigProbeDecode bs = some t) :
    ∃ bs2, utf8sigEncode t = some bs2 ∧ utf8sigDecode bs2 = some t := by
  have hval : ∀ c ∈ t, ValidScalar c = true := by
    unfold utf8sigProbeDecode at h
    by_cases hbm : bs.take 3 = [239, 187, 191]
    · rw [if_pos hbm] at h
      exact utf8Lines_valid
        (show utf8DecodeLinesAux (bs.drop 3).length 3 (bs.drop 3) = some t from h)
    · rw [if_neg hbm] at h
      exact utf8Lines_valid
        (show utf8DecodeLinesAux bs.length 3 bs = some t from h)
  obtain ⟨bse, hbse⟩ := utf8Encode_total hval
  refine ⟨239 :: 187 :: 191 :: bse, ?_, ?_⟩
  · unfold utf8sigEncode
    rw [hbse]
    rfl
  · unfold utf8sigDecode
    rw [if_pos (show List.take 3 (239 :: 187 :: 191 :: bse) = [239, 187, 191]
      from rfl)]
    show utf8Decode bse = some t
    exact utf8Decode_encode hbse le_rfl

/-! ## Single-byte codec lemmas -/

theorem sbLines_exists (dec : Nat → Option Nat) : ∀ {bs : List Nat} {n : Nat}
    {t : List Nat}, sbDecodeLinesAux dec n bs = some t →
    ∀ c ∈ t, ∃ b ∈ bs, dec b = some c := by
  intro bs
  induction bs with
  | nil =>
    intro n t h c hc
    match n with
    | 0 => simp [sbDecodeLinesAux] at h; subst h; simp at hc
    | _ + 1 => simp [sbDecodeLinesAux] at h; subst h; simp at hc
  | cons b bs' ih =>
    intro n t h c hc
    match n with
    | 0 => simp [sbDecodeLinesAux] at h; subst h; simp at hc
    | n' + 1 =>
      cases hd : dec b with
      | none => simp [sbDecodeLinesAux, hd] at h
      | some c0 =>
        simp only [sbDecodeLinesAux, hd] at h
        cases hrec : sbDecodeLinesAux dec (if c0 = 10 then n' else n' + 1) bs' with
        | none => rw [hrec] at h; simp at h
        | some cs =>
          rw [hrec] at h
          simp only [Option.some.injEq] at h
          subst h
          rcases List.mem_cons.mp hc with rfl | hc'
          · exact ⟨b, List.mem_cons_self b bs', hd⟩
          · obtain ⟨b', hb', hd'⟩ := ih hrec c hc'
            exact ⟨b', List.mem_cons_of_mem b hb', hd'⟩

theorem sb_rt (dec enc : Nat → Option Nat)
    (hinv : ∀ b c, dec b = some c → enc c = some b) :
    ∀ {t : List Nat}, (∀ c ∈ t, ∃ b, dec b = some c) →
    ∃ bs2, sbEncode enc t = some bs2 ∧ sbDecode dec bs2 = some t := by
  intro t
  induction t with
  | nil => exact fun _ => ⟨[], rfl, rfl⟩
  | cons c t' ih =>
    intro hex
    obtain ⟨b, hb⟩ := hex c (List.mem_cons_self c t')
    obtain ⟨bs3, henc3, hdec3⟩ :=
      ih (fun c' hc' => hex c' (List.mem_cons_of_mem c hc'))
    refine ⟨b :: bs3, ?_, ?_⟩
    · simp only [sbEncode, hinv b c hb, henc3]
    · simp only [sbDecode, hb, hdec3]

theorem ascii_inverse : ∀ b c, asciiByte b = some c → asciiEnc c = some b := by
  intro b c h
  unfold asciiByte at h
  split_ifs at h with hb
  simp only [Option.some.injEq] at h
  subst h
  simp [asciiEnc, hb]

theorem latin1_inverse : ∀ b c, latin1Byte b = some c → latin1Enc c = some b := by
  intro b c h
  unfold latin1Byte at h
  split_ifs at h with hb
  simp only [Option.some.injEq] at h
  subst h
  simp [latin1Enc, hb]

set_option maxHeartbeats 1000000 in
theorem cp1252_inverse : ∀ b c, cp1252Byte b = some c → cp1252Enc c = some b := by
  intro b c h
  by_cases h1 : b < 128
  · unfold cp1252Byte at h
    rw [if_pos h1] at h
    obtain rfl := Option.some.inj h
    unfold cp1252Enc
    rw [if_pos h1]
  · by_cases h2 : b < 160
    · interval_cases b <;> simp [cp1252Byte, cp1252Table] at h <;> (subst h; decide)
    · by_cases h3 : b < 256
      · have hby : cp1252Byte b = some b := by
          unfold cp1252Byte
          rw [if_neg h1, if_neg h2, if_pos h3]
        rw [hby] at h
        obtain rfl := Option.some.inj h
        unfold cp1252Enc
        rw [if_neg (by omega), if_pos (by omega)]
      · have hn : cp1252Byte b = none := by
          unfold cp1252Byte
          rw [if_neg h1, if_neg h2, if_neg h3]
        rw [hn] at h
        exact Option.noConfusion h

theorem ascii_rt {bs t : List Nat} (h : sbProbeDecode asciiByte bs = some t) :
    ∃ bs2, sbEncode asciiEnc t = some bs2 ∧ sbDecode asciiByte bs2 = some t :=
  sb_rt asciiByte asciiEnc ascii_inverse
    (fun c hc => (sbLines_exists asciiByte h c hc).imp (fun _ h' => h'.2))

theorem latin1_rt {bs t : List Nat} (h : sbProbeDecode latin1Byte bs = some t) :
    ∃ bs2, sbEncode latin1Enc t = some bs2 ∧ sbDecode latin1Byte bs2 = some t :=
  sb_rt latin1Byte latin1Enc latin1_inverse
    (fun c hc => (sbLines_exists latin1Byte h c hc).imp (fun _ h' => h'.2))

theorem cp1252_rt {bs t : List Nat} (h : sbProbeDecode cp1252Byte bs = some t) :
    ∃ bs2, sbEncode cp1252Enc t = some bs2 ∧ sbDecode cp1252Byte bs2 = some t :=
  sb_rt cp1252Byte cp1252Enc cp1252_inverse
    (fun c hc => (sbLines_exists cp1252Byte h c hc).imp (fun _ h' => h'.2))

/-! ## UTF-16 codec lemmas -/

theorem u16bytes_val (be : Bool) (u : Nat) (_h : u < 65536) :
    ∃ x y, u16bytes be u = [x, y] ∧ u16val be x y = u := by
  cases be
  · refine ⟨u % 256, u / 256, by simp [u16bytes], ?_⟩
    simp only [u16val, Bool.false_eq_true, if_false]
    omega
  · refine ⟨u / 256, u % 256, by simp [u16bytes], ?_⟩
    simp only [u16val, if_true]
    omega

theorem u16val_lt (be : Bool) {b1 b2 : Nat} (h1 : b1 < 256) (h2 : b2 < 256) :
    u16val be b1 b2 < 65536 := by
  cases be <;> simp [u16val] <;> omega

theorem utf16Encode_total (be : Bool) : ∀ {t : List Nat},
    (∀ c ∈ t, ValidScalar c = true) → ∃ bs2, utf16Encode be t = some bs2 := by
  intro t
  induction t with
  | nil => exact fun _ => ⟨[], rfl⟩
  | cons c t ih =>
    intro hv
    obtain ⟨bs3, hbs3⟩ := ih (fun c' hc' => hv c' (List.mem_cons_of_mem c hc'))
    have hvc : ValidScalar c = true := hv c (List.mem_cons_self c t)
    refine ⟨utf16EncodeChar be c ++ bs3, ?_⟩
    simp only [utf16Encode, hvc, if_pos, hbs3]
    rfl

theorem utf16Decode_encode (be : Bool) : ∀ {t bs2 : List Nat},
    utf16Encode be t = some bs2 →
    ∀ {fuel : Nat}, bs2.length ≤ fuel → utf16DecodeAux be fuel bs2 = some t := by
  intro t
  induction t with
  | nil =>
    intro bs2 h fuel hf
    have h0 : some ([] : List Nat) = some bs2 := h
    obtain rfl := (Option.some.inj h0).symm
    cases fuel <;> simp [utf16DecodeAux]
  | cons c t ih =>
    intro bs2 h fuel hf
    simp only [utf16Encode] at h
    by_cases hv : ValidScalar c = true
    · rw [if_pos hv] at h
      cases henc : utf16Encode be t with
      | none => rw [henc] at h; simp at h
      | some bs3 =>
        rw [henc] at h
        simp only [Option.map_some', Option.some.injEq] at h
        subst h
        have hc' : c < 1114112 ∧ (c < 55296 ∨ 57344 ≤ c) := by
          unfold ValidScalar at hv
          simpa using hv
        by_cases hbmp : c < 65536
        · obtain ⟨x, y, hxy, hval⟩ := u16bytes_val be c hbmp
          rw [show utf16EncodeChar be c = u16bytes be c from if_pos hbmp, hxy]
            at hf ⊢
          simp only [List.cons_append, List.nil_append, List.length_cons] at hf
          match fuel with
          | 0 => exact absurd hf (by omega)
          | f + 1 =>
            show utf16DecodeAux be (f + 1) (x :: y :: bs3) = some (c :: t)
            simp only [utf16DecodeAux, hval]
            rw [if_pos hc'.2]
            rw [ih henc (show bs3.length ≤ f by omega)]
        · rw [show utf16EncodeChar be c =
            u16bytes be (55296 + (c - 65536) / 1024) ++
              u16bytes be (56320 + (c - 65536) % 1024) from if_neg hbmp] at hf ⊢
          obtain ⟨x1, y1, hxy1, hval1⟩ :=
            u16bytes_val be (55296 + (c - 65536) / 1024) (by omega)
          obtain ⟨x2, y2, hxy2, hval2⟩ :=
            u16bytes_val be (56320 + (c - 65536) % 1024) (by omega)
          rw [hxy1, hxy2] at hf ⊢
          simp only [List.cons_append, List.nil_append, List.length_cons,
            List.length_append] at hf
          match fuel with
          | 0 => exact absurd hf (by omega)
          | f + 1 =>
            show utf16DecodeAux be (f + 1) (x1 :: y1 :: x2 :: y2 :: bs3) =
              some (c :: t)
            simp only [utf16DecodeAux, hval1, hval2]
            rw [if_neg (by omega), if_pos (by omega)]
            rw [if_pos (by constructor <;> omega)]
            rw [ih henc (show bs3.length ≤ f by omega)]
            have hcv : 65536 + (55296 + (c - 65536) / 1024 - 55296) * 1024 +
                (56320 + (c - 65536) % 1024 - 56320) = c := by omega
            rw [hcv]
    · rw [if_neg hv] at h
      simp at h

set_option maxRecDepth 4096 in
theorem utf16Lines_valid (be : Bool) : ∀ {fuel n : Nat} {bs t : List Nat},
    (∀ b ∈ bs, b < 256) → utf16DecodeLinesAux be fuel n bs = some t →
    ∀ c ∈ t, ValidScalar c = true := by
  intro fuel
  induction fuel with
  | zero =>
    intro n bs t hb h c hc
    match bs, n with
    | _, 0 =>
      simp [utf16DecodeLinesAux] at h
      subst h
      simp at hc
    | [], _ + 1 =>
      simp [utf16DecodeLinesAux] at h
      subst h
      simp at hc
    | _ :: _, _ + 1 => simp [utf16DecodeLinesAux] at h
  | succ fuel ih =>
    intro n bs t hb h c hc
    match bs, n with
    | _, 0 =>
      simp [utf16DecodeLinesAux] at h
      subst h
      simp at hc
    | [], _ + 1 =>
      simp [utf16DecodeLinesAux] at h
      subst h
      simp at hc
    | [b1], _ + 1 => simp [utf16DecodeLinesAux] at h
    | b1 :: b2 :: bs', n' + 1 =>
      have hb1 : b1 < 256 := hb b1 (by simp)
      have hb2 : b2 < 256 := hb b2 (by simp)
      have hu := u16val_lt be hb1 hb2
      by_cases hc1 : u16val be b1 b2 < 55296 ∨ 57344 ≤ u16val be b1 b2
      · simp only [utf16DecodeLinesAux, if_pos hc1] at h
        cases hrec : utf16DecodeLinesAux be fuel
            (if u16val be b1 b2 = 10 then n' else n' + 1) bs' with
        | none => rw [hrec] at h; simp at h
        | some cs =>
          rw [hrec] at h
          simp only [Option.some.injEq] at h
          subst h
          rcases List.mem_cons.mp hc with rfl | hc'
          · unfold ValidScalar
            simp only [Bool.and_eq_true, Bool.or_eq_true, decide_eq_true_eq]
            omega
          · exact ih (fun b hbm => hb b (by simp [hbm])) hrec c hc'
      · simp only [utf16DecodeLinesAux, if_neg hc1] at h
        by_cases hc2 : u16val be b1 b2 < 56320
        · rw [if_pos hc2] at h
          match bs' with
          | [] => simp at h
          | [b3] => simp at h
          | b3 :: b4 :: bs2 =>
            dsimp only at h
            have hb3 : b3 < 256 := hb b3 (by simp)
            have hb4 : b4 < 256 := hb b4 (by simp)
            have hu2 := u16val_lt be hb3 hb4
            by_cases hc3 : 56320 ≤ u16val be b3 b4 ∧ u16val be b3 b4 < 57344
            · rw [if_pos hc3] at h
              cases hrec : utf16DecodeLinesAux be fuel (n' + 1) bs2 with
              | none => rw [hrec] at h; simp at h
              | some cs =>
                rw [hrec] at h
                simp only [Option.some.injEq] at h
                subst h
                rcases List.mem_cons.mp hc with hceq | hc'
                · unfold ValidScalar
                  simp only [Bool.and_eq_true, Bool.or_eq_true, decide_eq_true_eq]
                  omega
                · exact ih (fun b hbm => hb b (by simp [hbm])) hrec c hc'
            · rw [if_neg hc3] at h
              exact absurd h (by simp)
        · rw [if_neg hc2] at h
          exact absurd h (by simp)

theorem utf16_rt (be : Bool) {bs t : List Nat} (hb : ∀ b ∈ bs, b < 256)
    (h : utf16ProbeDecode be bs = some t) :
    ∃ bs2, utf16Encode be t = some bs2 ∧ utf16Decode be bs2 = some t := by
  have hval := utf16Lines_valid be hb
    (show utf16DecodeLinesAux be bs.length 3 bs = some t from h)
  obtain ⟨bs2, hbs2⟩ := utf16Encode_total be hval
  exact ⟨bs2, hbs2, utf16Decode_encode be hbs2 le_rfl⟩

theorem utf16bom_rt {bs t : List Nat} (hb : ∀ b ∈ bs, b < 256)
    (h : utf16BomProbeDecode bs = some t) :
    ∃ bs2, utf16BomEncode t = some bs2 ∧ utf16BomDecode bs2 = some t := by
  have hval : ∀ c ∈ t, ValidScalar c = true := by
    unfold utf16BomProbeDecode at h
    have hdropb : ∀ b ∈ bs.drop 2, b < 256 :=
      fun b hbm => hb b (List.mem_of_mem_drop hbm)
    split_ifs at h with h1 h2
    · exact utf16Lines_valid false hdropb h
    · exact utf16Lines_valid true hdropb h
    · exact utf16Lines_valid false hb h
  obtain ⟨bse, hbse⟩ := utf16Encode_total false hval
  refine ⟨255 :: 254 :: bse, ?_, ?_⟩
  · unfold utf16BomEncode
    rw [hbse]
    rfl
  · unfold utf16BomDecode
    rw [if_pos (show List.take 2 (255 :: 254 :: bse) = [255, 254] from rfl)]
    show utf16Decode false bse = some t
    exact utf16Decode_encode false hbse le_rfl

/-! ## C6: the resolver and round-tripping -/

theorem firstThat_mem_isSome (p : String → Bool) (l : List String) (a : String)
    (ha : a ∈ l) (hp : p a = true) : (firstThat p l).isSome := by
  cases h : firstThat p l with
  | some e => rfl
  | none =>
    have hfa := (firstThat_eq_none_iff p l).mp h a ha
    rw [hp] at hfa
    exact absurd hfa (by simp)

/-- C6 counterexample: on the valid-UTF-8 byte string `"h"` (no
detector result), the resolver returns `utf-8-sig`, whose decode
succeeds, but re-encoding the decoded text prepends a BOM and does not
reproduce the input bytes — the claim's byte-level round trip fails. -/
theorem resolveBytes_byte_roundtrip_cex :
    resolveBytes [104] none = some ("utf-8-sig") ∧
    decodeWith ("utf-8-sig") [104] = some [104] ∧
    encodeWith ("utf-8-sig") [104] = some [239, 187, 191, 104] ∧
    encodeWith ("utf-8-sig") [104] ≠ some [104] := by
  refine ⟨?_, ?_, ?_, ?_⟩ <;> decide

/-- C6 (amended): for every valid-UTF-8 byte sequence (bytes < 256),
when the detector's confident guess names a supported encoding, the
resolver returns an encoding whose probe decode succeeds, and the
decoded text round-trips at the text level: re-encoding it and decoding
again yields the same text (the re-encoded bytes may differ from the
input, e.g. by a prepended BOM). -/
theorem resolveBytes_text_roundtrip (bs : List Nat)
    (detected : Option DetectResult)
    (hv : (utf8Decode bs).isSome = true) (hb : ∀ b ∈ bs, b < 256)
    (hg : GuessSupported detected) :
    ∃ e t, resolveBytes bs detected = some e ∧
      probeDecodeWith e bs = some t ∧
      ∃ bs2, encodeWith e t = some bs2 ∧ decodeWith e bs2 = some t := by
  have hsig : (fun e => (probeDecodeWith e bs).isSome) ("utf-8-sig") = true := by
    show (utf8sigProbeDecode bs).isSome = true
    exact utf8sigProbe_isSome hv
  have hmem : ("utf-8-sig" : String) ∈ candidate_list detected := by
    cases detected with
    | none => simp [candidate_list, encodings]
    | some d =>
      by_cases hconf : d.confidence > (7 : Rat) / 10 <;>
        simp [candidate_list, encodings, hconf]
  have hsome : (firstThat (fun e => (probeDecodeWith e bs).isSome)
      (candidate_list detected)).isSome :=
    firstThat_mem_isSome _ _ _ hmem hsig
  cases he : firstThat (fun e => (probeDecodeWith e bs).isSome)
      (candidate_list detected) with
  | none => rw [he] at hsome; exact absurd hsome (by simp)
  | some e =>
    obtain ⟨l1, l2, hsplit, hpe, -⟩ := (firstThat_eq_some_iff _ _ _).mp he
    obtain ⟨t, ht⟩ := Option.isSome_iff_exists.mp hpe
    refine ⟨e, t, he, ht, ?_⟩
    have hcand : e ∈ candidate_list detected := by
      rw [hsplit]; simp
    have hemem : e ∈ encodings := by
      cases detected with
      | none => simpa [candidate_list] using hcand
      | some d =>
        by_cases hconf : d.confidence > (7 : Rat) / 10
        · rw [show candidate_list (some d) = d.encoding :: encodings by
            simp [candidate_list, hconf]] at hcand
          rcases List.mem_cons.mp hcand with rfl | h2
          · exact hg d rfl hconf
          · exact h2
        · simpa [candidate_list, hconf] using hcand
    have hencs : e = ("utf-8-sig") ∨ e = ("utf-16") ∨ e = ("utf-16le") ∨
        e = ("utf-16be") ∨ e = ("utf-8") ∨ e = ("ascii") ∨
        e = ("iso-8859-1") ∨ e = ("cp1252") := by
      simpa [encodings] using hemem
    rcases hencs with rfl | rfl | rfl | rfl | rfl | rfl | rfl | rfl
    · obtain ⟨bs2, h1, h2⟩ :=
        utf8sig_rt (show utf8sigProbeDecode bs = some t from ht)
      exact ⟨bs2, h1, h2⟩
    · obtain ⟨bs2, h1, h2⟩ :=
        utf16bom_rt hb (show utf16BomProbeDecode bs = some t from ht)
      exact ⟨bs2, h1, h2⟩
    · obtain ⟨bs2, h1, h2⟩ :=
        utf16_rt false hb (show utf16ProbeDecode false bs = some t from ht)
      exact ⟨bs2, h1, h2⟩
    · obtain ⟨bs2, h1, h2⟩ :=
        utf16_rt true hb (show utf16ProbeDecode true bs = some t from ht)
      exact ⟨bs2, h1, h2⟩
    · obtain ⟨bs2, h1, h2⟩ :=
        utf8_rt (show utf8ProbeDecode bs = some t from ht)
      exact ⟨bs2, h1, h2⟩
    · obtain ⟨bs2, h1, h2⟩ :=
        ascii_rt (show sbProbeDecode asciiByte bs = some t from ht)
      exact ⟨bs2, h1, h2⟩
    · obtain ⟨bs2, h1, h2⟩ :=
        latin1_rt (show sbProbeDecode latin1Byte bs = some t from ht)
      exact ⟨bs2, h1, h2⟩
    · obtain ⟨bs2, h1, h2⟩ :=
        cp1252_rt (show sbProbeDecode cp1252Byte bs = some t from ht)
      exact ⟨bs2, h1, h2⟩

/-- Witness for the amended C6 at the byte string `"h"`. -/
theorem resolveBytes_text_roundtrip_witness :
    ∃ e t, resolveBytes [104] none = some e ∧
      probeDecodeWith e [104] = some t ∧
      ∃ bs2, encodeWith e t = some bs2 ∧ decodeWith e bs2 = some t :=
  resolveBytes_text_roundtrip [104] none (by decide) (by decide)
    (fun d hd => absurd hd (by simp))

end CsvMerger
